import Mathlib

/-!
The program toymetro: a toy Metropolis sampler.

A shallow embedding of `src/toymetro.c` (one function, `main`) and the properties of it
that the specification states.

Modelling conventions.

* The C `double`s `x`, `y`, `w`, `delta`, `xsum` are taken in exact arithmetic: the
  definitions are written over an arbitrary linearly ordered field `α`, so they run on `ℚ`
  and the theorems hold for `ℝ` as well.  Rounding is not modelled.  The properties
  proved of the program (ranges, the reflection, the accept/reject rule, positivity, the
  accumulators, the output) do not rest on exact cancellation.  Facts that do, such as
  `(x + delta) - delta = x`, are kept apart in the last section as facts of the exact
  kernel only: the binary64 additions of the source do not satisfy them.
* The one `double` that can leave the finite range is the Metropolis ratio `mr = y/x`
  (the divisor `x` may be zero), so the quotient has its own type `DivResult` with the
  IEEE-754 outcomes of a division.
* `drand48()` is a stream `drand48 : ℕ → α`; the state counts how many values were taken
  from it, so the n-th call returns `drand48 n`.
* `printf` appends a line to the output kept in the state; the number formatting of
  `%10.6f` is not modelled, a record carries the values themselves.
* `int i`, `int nacpt`: the counters stay between `0` and `iterations`, which is `100000`
  in the source, so no wrap-around is modelled.
-/

namespace Toymetro

/-- Outcome of a `double` division: a finite quotient, an infinity, or not-a-number. -/
inductive DivResult (α : Type) where
  | fin (q : α)
  | posInf
  | negInf
  | nan

/-- One line written to standard output. -/
inductive Line (α : Type) where
  | header
  | record (i : Nat) (x mean : α) (nacpt : Int)
  | footer

/-- Variables of `main` that live across iterations, with the number of `drand48()`
calls made so far and the lines printed so far. -/
structure State (α : Type) where
  x : α
  xsum : α
  nacpt : Int
  drawn : Nat
  out : List (Line α)

/-- What lines 78-83 leave behind: the chain value, the acceptance counter and the
position in the random stream. -/
structure Chain (α : Type) where
  x : α
  nacpt : Int
  drawn : Nat

section Defs

variable {α : Type} [LinearOrderedField α]

/-- The division `y/x` of line 78.  Dividing by zero gives `+inf`, `-inf` or NaN by the
sign of the numerator (the chain value `x` is never a negative zero: it is `0.5` or an
earlier proposal, and no proposal is `-0.0`). -/
def fdiv (y x : α) : DivResult α :=
  if x = 0 then
    if y > 0 then DivResult.posInf
    else if y < 0 then DivResult.negInf
    else DivResult.nan
  else DivResult.fin (y / x)

/-- The comparison `mr >= 1.0` of line 80; false on NaN. -/
def DivResult.geOne : DivResult α → Bool
  | DivResult.fin q => decide (q ≥ 1)
  | DivResult.posInf => true
  | DivResult.negInf => false
  | DivResult.nan => false

/-- The comparison `u <= mr` of line 80 for a finite `u`; false on NaN. -/
def DivResult.leFrom (u : α) : DivResult α → Bool
  | DivResult.fin q => decide (u ≤ q)
  | DivResult.posInf => true
  | DivResult.negInf => false
  | DivResult.nan => false

/-- Lines 73-76: the two reflection checks, one after the other (not chained by
an `else`), applied to `y`. -/
def reflect (y : α) : α :=
  let y := if y > 1 then 2 - y else y
  if y < 0 then -y else y

/-- Line 69: `delta = w * (drand48() - 0.5)` for the drawn value `r`. -/
def deltaOf (w r : α) : α := w * (r - 0.5)

/-- Lines 72-76: draw from the proposal distribution, given `delta`. -/
def propose (x delta : α) : α := reflect (x + delta)

/-- Lines 78-83: the Metropolis ratio and the accept/reject decision.  The `||` of C
evaluates `drand48()` only when `mr >= 1.0` is false. -/
def acceptReject (drand48 : Nat → α) (x y : α) (nacpt : Int) (drawn : Nat) : Chain α :=
  let mr := fdiv y x
  if mr.geOne then
    { x := y, nacpt := nacpt + 1, drawn := drawn }
  else if DivResult.leFrom (drand48 drawn) mr then
    { x := y, nacpt := nacpt + 1, drawn := drawn + 1 }
  else
    { x := x, nacpt := nacpt, drawn := drawn + 1 }

/-- Lines 65-86: the body of the `for` loop, for the counter value `i`. -/
def body (w : α) (drand48 : Nat → α) (i : Nat) (s : State α) : State α :=
  let delta := deltaOf w (drand48 s.drawn)
  let y := propose s.x delta
  let c := acceptReject drand48 s.x y s.nacpt (s.drawn + 1)
  let xsum := s.xsum + c.x
  { x := c.x
    xsum := xsum
    nacpt := c.nacpt
    drawn := c.drawn
    out := if i % 100 = 0 then s.out ++ [Line.record i c.x (xsum / (i : α)) c.nacpt]
           else s.out }

/-- Line 64 and 87: `for(i = ...; i <= iterations; i++) body`, entered with counter `i`. -/
def loop (w : α) (drand48 : Nat → α) (iterations : Nat) (i : Nat) (s : State α) : State α :=
  if i ≤ iterations then loop w drand48 iterations (i + 1) (body w drand48 i s) else s
termination_by iterations + 1 - i

/-- Lines 52-63: the variables as initialised, after the header has been printed.  The
initial chain value is a parameter; the source fixes it to `0.5`. -/
def initial (x0 : α) : State α :=
  { x := x0, xsum := 0, nacpt := 0, drawn := 0, out := [Line.header] }

/-- The state after the first `k` passes through the loop body (`i = 1, ..., k`). -/
def stateAfter (x0 w : α) (drand48 : Nat → α) : Nat → State α
  | 0 => initial x0
  | k + 1 => body w drand48 (k + 1) (stateAfter x0 w drand48 k)

/-- The program with its constants as parameters: the final state and the exit status. -/
def run (x0 w : α) (iterations : Nat) (drand48 : Nat → α) : State α × Int :=
  let s := loop w drand48 iterations 1 (initial x0)
  ({ s with out := s.out ++ [Line.footer] }, 0)

/-- Lines 50-90: `main`, with `x = 0.5`, `w = 0.4`, `iterations = 100000`. -/
def main (drand48 : Nat → α) : State α × Int := run 0.5 0.4 100000 drand48

/-- The iteration numbers of the diagnostic records among the printed lines, in the
order printed. -/
def recordIts : List (Line α) → List Nat
  | [] => []
  | Line.record i _ _ _ :: rest => i :: recordIts rest
  | _ :: rest => recordIts rest

/-- The perturbation `delta` is in the support `[-w/2, w/2]` of line 69 and the proposal
made from `x` with it is `y`. -/
def LeadsTo (w x y delta : α) : Prop :=
  -(w / 2) ≤ delta ∧ delta ≤ w / 2 ∧ propose x delta = y

instance (w x y delta : α) : Decidable (LeadsTo w x y delta) := by
  unfold LeadsTo
  infer_instance

/-- The condition of line 80, `mr >= 1.0 || drand48() <= mr`, for the state `x`, the
proposal `y` and the stream read at position `drawn`. -/
def accepts (drand48 : Nat → α) (x y : α) (drawn : Nat) : Bool :=
  (fdiv y x).geOne || DivResult.leFrom (drand48 drawn) (fdiv y x)

/-- Whether pass `k + 1` through the loop body takes the accept branch of line 80. -/
def acceptedIn (x0 w : α) (drand48 : Nat → α) (k : Nat) : Bool :=
  accepts drand48 (stateAfter x0 w drand48 k).x
    (propose (stateAfter x0 w drand48 k).x
      (deltaOf w (drand48 (stateAfter x0 w drand48 k).drawn)))
    ((stateAfter x0 w drand48 k).drawn + 1)

/-- The record that line 86 prints in pass `i`. -/
def recordOf (x0 w : α) (drand48 : Nat → α) (i : Nat) : Line α :=
  Line.record i (stateAfter x0 w drand48 i).x
    ((stateAfter x0 w drand48 i).xsum / (i : α)) (stateAfter x0 w drand48 i).nacpt

/-- The reflection as an `if` / `else if` chain, the variant the specification compares
lines 73-76 with; it is not what the source does. -/
def reflectElseIf (y : α) : α :=
  if y > 1 then 2 - y else if y < 0 then -y else y

/-- The draws of a stream lie in `[0,1]`. -/
def UnitDraws (drand48 : Nat → α) : Prop := ∀ n, 0 ≤ drand48 n ∧ drand48 n ≤ 1

end Defs

section Lemmas

variable {α : Type} [LinearOrderedField α]

theorem loop_stateAfter (x0 w : α) (drand48 : Nat → α) (iterations : Nat) :
    ∀ (m k : Nat), k + m = iterations →
      loop w drand48 iterations (k + 1) (stateAfter x0 w drand48 k)
        = stateAfter x0 w drand48 iterations := by
  intro m
  induction m with
  | zero =>
    intro k hk
    rw [loop]
    have : ¬ (k + 1 ≤ iterations) := by omega
    simp [this]
    subst hk
    rfl
  | succ m ih =>
    intro k hk
    rw [loop]
    have : k + 1 ≤ iterations := by omega
    simp only [this, if_true]
    exact ih (k + 1) (by omega)

/-- The loop entered at `i = 1` ends in the state after `iterations` passes. -/
theorem loop_eq_stateAfter (x0 w : α) (drand48 : Nat → α) (iterations : Nat) :
    loop w drand48 iterations 1 (initial x0) = stateAfter x0 w drand48 iterations :=
  loop_stateAfter x0 w drand48 iterations iterations 0 (by omega)

end Lemmas

section Helpers

variable {α : Type} [LinearOrderedField α]

/-- The two checks bring every value of `[-1, 2]` into `[0, 1]`. -/
theorem reflect_mem_unit (y : α) (hlo : -1 ≤ y) (hhi : y ≤ 2) :
    0 ≤ reflect y ∧ reflect y ≤ 1 := by
  unfold reflect
  by_cases h1 : y > 1
  · have h2 : ¬ (2 - y < 0) := by linarith
    simp only [h1, if_true, h2, if_false]
    constructor <;> linarith
  · simp only [h1, if_false]
    by_cases h3 : y < 0
    · simp only [h3, if_true]
      constructor <;> linarith
    · simp only [h3, if_false]
      constructor <;> linarith

theorem reflect_of_mem_unit (y : α) (h0 : 0 ≤ y) (h1 : y ≤ 1) : reflect y = y := by
  unfold reflect
  have a : ¬ (y > 1) := not_lt.mpr h1
  have b : ¬ (y < 0) := not_lt.mpr h0
  simp only [a, if_false, b]

theorem reflect_of_gt_one (y : α) (h1 : y > 1) (h2 : y ≤ 2) : reflect y = 2 - y := by
  unfold reflect
  have b : ¬ (2 - y < 0) := by linarith
  simp only [h1, if_true, b, if_false]

theorem reflect_of_neg (y : α) (h0 : y < 0) : reflect y = -y := by
  unfold reflect
  have a : ¬ (y > 1) := by
    intro h
    have : (0 : α) < 1 := one_pos
    exact absurd h0 (not_lt.mpr (le_of_lt (lt_trans this h)))
  simp only [a, if_false, h0, if_true]

/-- A proposal from `x` in `[0,1]` with `|delta| ≤ w/2`, `0 < w ≤ 2`, is in `[0,1]`. -/
theorem propose_mem_unit (w x delta : α) (hw : w ≤ 2) (hx0 : 0 ≤ x) (hx1 : x ≤ 1)
    (hd : |delta| ≤ w / 2) : 0 ≤ propose x delta ∧ propose x delta ≤ 1 := by
  have hd2 := abs_le.mp hd
  exact reflect_mem_unit (x + delta) (by linarith [hd2.1]) (by linarith [hd2.2])

/-- The perturbation of line 69 has `|delta| ≤ w/2` when the draw is in `[0,1]`. -/
theorem abs_deltaOf_le (w r : α) (hw : 0 ≤ w) (hr0 : 0 ≤ r) (hr1 : r ≤ 1) :
    |deltaOf w r| ≤ w / 2 := by
  unfold deltaOf
  rw [abs_le]
  constructor <;> norm_num <;> nlinarith

/-- Lines 78-83 leave in `x` either the proposal or the old value. -/
theorem acceptReject_x_cases (drand48 : Nat → α) (x y : α) (nacpt : Int) (drawn : Nat) :
    (acceptReject drand48 x y nacpt drawn).x = y ∨
      (acceptReject drand48 x y nacpt drawn).x = x := by
  unfold acceptReject
  simp only
  split_ifs <;> simp

/-- The loop body keeps a chain value of `[0,1]` in `[0,1]`. -/
theorem body_x_mem_unit (w : α) (drand48 : Nat → α) (i : Nat) (s : State α)
    (hw0 : 0 ≤ w) (hw : w ≤ 2) (hr : UnitDraws drand48) (hx0 : 0 ≤ s.x) (hx1 : s.x ≤ 1) :
    0 ≤ (body w drand48 i s).x ∧ (body w drand48 i s).x ≤ 1 := by
  have hy := propose_mem_unit w s.x (deltaOf w (drand48 s.drawn)) hw hx0 hx1
    (abs_deltaOf_le w _ hw0 (hr _).1 (hr _).2)
  have hc := acceptReject_x_cases drand48 s.x
    (propose s.x (deltaOf w (drand48 s.drawn))) s.nacpt (s.drawn + 1)
  have hb : (body w drand48 i s).x = (acceptReject drand48 s.x
      (propose s.x (deltaOf w (drand48 s.drawn))) s.nacpt (s.drawn + 1)).x := rfl
  rw [hb]
  rcases hc with h | h <;> rw [h]
  · exact hy
  · exact ⟨hx0, hx1⟩

/-- The chain value stays in `[0,1]` through any number of passes. -/
theorem stateAfter_x_mem_unit (x0 w : α) (drand48 : Nat → α) (hw0 : 0 ≤ w) (hw : w ≤ 2)
    (hr : UnitDraws drand48) (h0 : 0 ≤ x0) (h1 : x0 ≤ 1) (k : Nat) :
    0 ≤ (stateAfter x0 w drand48 k).x ∧ (stateAfter x0 w drand48 k).x ≤ 1 := by
  induction k with
  | zero => exact ⟨h0, h1⟩
  | succ k ih => exact body_x_mem_unit w drand48 (k + 1) _ hw0 hw hr ih.1 ih.2

/-- With a divisor that is not zero the ratio is the ordinary quotient. -/
theorem fdiv_of_ne_zero (y x : α) (hx : x ≠ 0) : fdiv y x = DivResult.fin (y / x) := by
  unfold fdiv
  rw [if_neg hx]

/-- Lines 78-83 for a state `x ≠ 0`, with the two comparisons as propositions. -/
theorem acceptReject_of_ne_zero (drand48 : Nat → α) (x y : α) (nacpt : Int) (drawn : Nat)
    (hx : x ≠ 0) :
    acceptReject drand48 x y nacpt drawn =
      if y / x ≥ 1 then { x := y, nacpt := nacpt + 1, drawn := drawn }
      else if drand48 drawn ≤ y / x then { x := y, nacpt := nacpt + 1, drawn := drawn + 1 }
      else { x := x, nacpt := nacpt, drawn := drawn + 1 } := by
  unfold acceptReject
  simp only [fdiv_of_ne_zero y x hx, DivResult.geOne, DivResult.leFrom, decide_eq_true_eq]

/-- From a positive state, a non-negative proposal leaves a positive state when the
acceptance draw, if one is taken, is positive. -/
theorem acceptReject_x_pos (drand48 : Nat → α) (x y : α) (nacpt : Int) (drawn : Nat)
    (hx : 0 < x) (hy : 0 ≤ y)
    (hu : (acceptReject drand48 x y nacpt drawn).drawn = drawn + 1 → 0 < drand48 drawn) :
    0 < (acceptReject drand48 x y nacpt drawn).x := by
  rw [acceptReject_of_ne_zero drand48 x y nacpt drawn (ne_of_gt hx)] at hu ⊢
  split_ifs with h1 h2
  · show 0 < y
    have : x ≤ y := (one_le_div hx).mp h1
    linarith
  · show 0 < y
    rw [if_neg h1, if_pos h2] at hu
    have : 0 < y / x := lt_of_lt_of_le (hu rfl) h2
    rcases eq_or_lt_of_le hy with h | h
    · rw [← h, zero_div] at this
      exact absurd this (lt_irrefl 0)
    · exact h
  · exact hx

/-- The two checks bring a value into `[0,1]` exactly when it lies in `[-1, 3]`. -/
theorem reflect_mem_unit_iff (y : α) :
    (0 ≤ reflect y ∧ reflect y ≤ 1) ↔ (-1 ≤ y ∧ y ≤ 3) := by
  unfold reflect
  by_cases h1 : y > 1
  · by_cases h2 : 2 - y < 0
    · simp only [h1, if_true, h2]
      constructor
      · rintro ⟨-, b⟩
        constructor <;> linarith
      · rintro ⟨-, b⟩
        constructor <;> linarith
    · simp only [h1, if_true, h2, if_false]
      constructor
      · rintro ⟨-, -⟩
        constructor <;> linarith
      · rintro ⟨-, -⟩
        constructor <;> linarith
  · by_cases h3 : y < 0
    · simp only [h1, if_false, h3, if_true]
      constructor
      · rintro ⟨-, b⟩
        constructor <;> linarith
      · rintro ⟨a, -⟩
        constructor <;> linarith
    · simp only [h1, if_false, h3]
      constructor
      · rintro ⟨-, -⟩
        constructor <;> linarith
      · rintro ⟨-, -⟩
        constructor <;> linarith

omit [LinearOrderedField α] in
theorem recordIts_append (l₁ l₂ : List (Line α)) :
    recordIts (l₁ ++ l₂) = recordIts l₁ ++ recordIts l₂ := by
  induction l₁ with
  | nil => rfl
  | cons a l ih =>
    cases a with
    | header => simpa [recordIts] using ih
    | record i x m n => simpa [recordIts] using ih
    | footer => simpa [recordIts] using ih

/-- The records printed by the first `k` passes carry the multiples of `100` among
`1, ..., k`, in increasing order. -/
theorem recordIts_stateAfter (x0 w : α) (drand48 : Nat → α) (k : Nat) :
    recordIts (stateAfter x0 w drand48 k).out =
      (List.range' 1 k).filter (fun i => i % 100 = 0) := by
  induction k with
  | zero => rfl
  | succ k ih =>
    rw [List.range'_1_concat, List.filter_append]
    have hout : (stateAfter x0 w drand48 (k + 1)).out =
        if (k + 1) % 100 = 0 then
          (stateAfter x0 w drand48 k).out ++
            [Line.record (k + 1) (stateAfter x0 w drand48 (k + 1)).x
              ((stateAfter x0 w drand48 (k + 1)).xsum / ((k + 1 : Nat) : α))
              (stateAfter x0 w drand48 (k + 1)).nacpt]
        else (stateAfter x0 w drand48 k).out := rfl
    rw [hout]
    by_cases h : (k + 1) % 100 = 0
    · have h' : (1 + k) % 100 = 0 := by omega
      rw [if_pos h, recordIts_append, ih]
      simp [recordIts, h, Nat.add_comm]
    · have h' : ¬ ((1 + k) % 100 = 0) := by omega
      rw [if_neg h, ih]
      simp [h']

theorem hundreds_length (n : Nat) :
    ((List.range' 1 n).filter (fun i => i % 100 = 0)).length = n / 100 := by
  induction n with
  | zero => rfl
  | succ n ih =>
    rw [List.range'_1_concat, List.filter_append, List.length_append, ih]
    by_cases h : (1 + n) % 100 = 0
    · have : (n + 1) / 100 = n / 100 + 1 := by omega
      simp [h, this]
    · have : (n + 1) / 100 = n / 100 := by omega
      simp [h, this]

theorem hundreds_of_multiple (m : Nat) :
    (List.range' 1 (100 * m)).filter (fun i => i % 100 = 0) =
      (List.range m).map (fun j => 100 * (j + 1)) := by
  induction m with
  | zero => rfl
  | succ m ih =>
    have hsplit : List.range' 1 (100 * (m + 1)) =
        List.range' 1 (100 * m) ++ List.range' (1 + 100 * m) 100 := by
      rw [List.range'_append_1]
      congr 1
      omega
    have hshift : List.range' (1 + 100 * m) 100 =
        List.map (fun i => 100 * m + i) (List.range' 1 100) := by
      rw [List.map_add_range']
      congr 1
      omega
    have hlast : (List.range' 1 100).filter (fun i => (100 * m + i) % 100 = 0) = [100] := by
      have : (fun i : Nat => decide ((100 * m + i) % 100 = 0)) =
          (fun i : Nat => decide (i % 100 = 0)) := by
        funext i
        rw [Nat.mul_add_mod]
      rw [this]
      decide
    rw [hsplit, List.filter_append, ih, hshift, List.filter_map, List.range_succ,
      List.map_append]
    congr 1
    have hcomp : ((fun i : Nat => decide (i % 100 = 0)) ∘ fun i => 100 * m + i) =
        (fun i : Nat => decide ((100 * m + i) % 100 = 0)) := rfl
    rw [hcomp, hlast]
    simp
    ring

/-- Lines 78-83 in terms of the condition of line 80. -/
theorem acceptReject_eq (drand48 : Nat → α) (x y : α) (nacpt : Int) (drawn : Nat) :
    acceptReject drand48 x y nacpt drawn =
      { x := if accepts drand48 x y drawn then y else x
        nacpt := if accepts drand48 x y drawn then nacpt + 1 else nacpt
        drawn := if (fdiv y x).geOne then drawn else drawn + 1 } := by
  unfold acceptReject accepts
  by_cases h1 : (fdiv y x).geOne = true
  · simp [h1]
  · by_cases h2 : DivResult.leFrom (drand48 drawn) (fdiv y x) = true
    · simp [h1, h2]
    · simp [h1, h2]

theorem stateAfter_succ_x (x0 w : α) (drand48 : Nat → α) (k : Nat) :
    (stateAfter x0 w drand48 (k + 1)).x =
      if acceptedIn x0 w drand48 k then
        propose (stateAfter x0 w drand48 k).x
          (deltaOf w (drand48 (stateAfter x0 w drand48 k).drawn))
      else (stateAfter x0 w drand48 k).x := by
  show (acceptReject drand48 _ _ _ _).x = _
  rw [acceptReject_eq]
  rfl

theorem stateAfter_succ_nacpt (x0 w : α) (drand48 : Nat → α) (k : Nat) :
    (stateAfter x0 w drand48 (k + 1)).nacpt =
      if acceptedIn x0 w drand48 k then (stateAfter x0 w drand48 k).nacpt + 1
      else (stateAfter x0 w drand48 k).nacpt := by
  show (acceptReject drand48 _ _ _ _).nacpt = _
  rw [acceptReject_eq]
  rfl

theorem stateAfter_succ_xsum (x0 w : α) (drand48 : Nat → α) (k : Nat) :
    (stateAfter x0 w drand48 (k + 1)).xsum =
      (stateAfter x0 w drand48 k).xsum + (stateAfter x0 w drand48 (k + 1)).x := rfl

theorem stateAfter_succ_drawn (x0 w : α) (drand48 : Nat → α) (k : Nat) :
    (stateAfter x0 w drand48 (k + 1)).drawn =
      (stateAfter x0 w drand48 k).drawn +
        (if (fdiv (propose (stateAfter x0 w drand48 k).x
              (deltaOf w (drand48 (stateAfter x0 w drand48 k).drawn)))
            (stateAfter x0 w drand48 k).x).geOne then 1 else 2) := by
  show (acceptReject drand48 _ _ _ _).drawn = _
  rw [acceptReject_eq]
  show (if _ then _ else _) = _
  split_ifs <;> rfl

theorem stateAfter_succ_out (x0 w : α) (drand48 : Nat → α) (k : Nat) :
    (stateAfter x0 w drand48 (k + 1)).out =
      if (k + 1) % 100 = 0 then
        (stateAfter x0 w drand48 k).out ++ [recordOf x0 w drand48 (k + 1)]
      else (stateAfter x0 w drand48 k).out := rfl

/-- The lines printed by the first `k` passes: the header, then one record for each
multiple of `100` among `1, ..., k`. -/
theorem stateAfter_out (x0 w : α) (drand48 : Nat → α) (k : Nat) :
    (stateAfter x0 w drand48 k).out =
      Line.header ::
        ((List.range' 1 k).filter (fun i => i % 100 = 0)).map (recordOf x0 w drand48) := by
  induction k with
  | zero => rfl
  | succ k ih =>
    rw [stateAfter_succ_out, List.range'_1_concat, List.filter_append, List.map_append, ih]
    by_cases h : (k + 1) % 100 = 0
    · have h' : (1 + k) % 100 = 0 := by omega
      rw [if_pos h]
      simp [h, Nat.add_comm]
    · have h' : ¬ ((1 + k) % 100 = 0) := by omega
      rw [if_neg h]
      simp [h']

/-- The sum accumulated by the first `k` passes, for any initial value of the chain. -/
theorem stateAfter_xsum (x0 w : α) (drand48 : Nat → α) (k : Nat) :
    (stateAfter x0 w drand48 k).xsum =
      Finset.sum (Finset.range k) (fun j => (stateAfter x0 w drand48 (j + 1)).x) := by
  induction k with
  | zero => rfl
  | succ k ih => rw [stateAfter_succ_xsum, Finset.sum_range_succ, ih]

/-- The acceptance counter after `k` passes counts the passes that accepted. -/
theorem stateAfter_nacpt (x0 w : α) (drand48 : Nat → α) (k : Nat) :
    (stateAfter x0 w drand48 k).nacpt =
      ((List.range k).countP (acceptedIn x0 w drand48) : Nat) := by
  induction k with
  | zero => rfl
  | succ k ih =>
    rw [stateAfter_succ_nacpt, List.range_succ, List.countP_append, ih]
    by_cases h : acceptedIn x0 w drand48 k = true
    · simp [h]
    · simp [h]

/-- Each pass takes one or two values from the stream. -/
theorem stateAfter_drawn_bounds (x0 w : α) (drand48 : Nat → α) (k : Nat) :
    k ≤ (stateAfter x0 w drand48 k).drawn ∧ (stateAfter x0 w drand48 k).drawn ≤ 2 * k := by
  induction k with
  | zero => exact ⟨le_refl _, le_refl _⟩
  | succ k ih =>
    rw [stateAfter_succ_drawn]
    split_ifs <;> constructor <;> omega

/-- The condition of line 80 for a state `x > 0`, as a proposition about `u`. -/
theorem accepts_iff_of_pos (drand48 : Nat → α) (x y : α) (drawn : Nat) (hx : 0 < x) :
    accepts drand48 x y drawn = true ↔ (y / x ≥ 1 ∨ drand48 drawn ≤ y / x) := by
  unfold accepts
  rw [fdiv_of_ne_zero y x (ne_of_gt hx)]
  simp [DivResult.geOne, DivResult.leFrom]

/-- With `w = 0.4`, the chain started in `(0,1]` stays in `(0,1]` as long as every
perturbation has `|delta| ≤ 0.2` and every acceptance draw that is taken is positive. -/
theorem stateAfter_x_pos (x0 : α) (drand48 : Nat → α) (hx0 : 0 < x0) (hx1 : x0 ≤ 1)
    (hd : ∀ k : Nat,
      |deltaOf 0.4 (drand48 (stateAfter x0 0.4 drand48 k).drawn)| ≤ 0.2)
    (hu : ∀ k : Nat,
      (stateAfter x0 0.4 drand48 (k + 1)).drawn = (stateAfter x0 0.4 drand48 k).drawn + 2 →
        0 < drand48 ((stateAfter x0 0.4 drand48 k).drawn + 1)) (k : Nat) :
    0 < (stateAfter x0 0.4 drand48 k).x ∧ (stateAfter x0 0.4 drand48 k).x ≤ 1 := by
  induction k with
  | zero => exact ⟨hx0, hx1⟩
  | succ k ih =>
    have hdk : |deltaOf 0.4 (drand48 (stateAfter x0 0.4 drand48 k).drawn)| ≤ (0.4 : α) / 2 := by
      have h := hd k
      have e : (0.4 : α) / 2 = 0.2 := by norm_num
      rw [e]
      exact h
    have hy := propose_mem_unit (0.4 : α) (stateAfter x0 0.4 drand48 k).x
      (deltaOf 0.4 (drand48 (stateAfter x0 0.4 drand48 k).drawn)) (by norm_num)
      (le_of_lt ih.1) ih.2 hdk
    constructor
    · exact acceptReject_x_pos drand48 _ _ _ _ ih.1 hy.1 (hu k)
    · have hc := acceptReject_x_cases drand48 (stateAfter x0 0.4 drand48 k).x
        (propose (stateAfter x0 0.4 drand48 k).x
          (deltaOf 0.4 (drand48 (stateAfter x0 0.4 drand48 k).drawn)))
        (stateAfter x0 0.4 drand48 k).nacpt ((stateAfter x0 0.4 drand48 k).drawn + 1)
      have hb : (stateAfter x0 0.4 drand48 (k + 1)).x = (acceptReject drand48
          (stateAfter x0 0.4 drand48 k).x
          (propose (stateAfter x0 0.4 drand48 k).x
            (deltaOf 0.4 (drand48 (stateAfter x0 0.4 drand48 k).drawn)))
          (stateAfter x0 0.4 drand48 k).nacpt ((stateAfter x0 0.4 drand48 k).drawn + 1)).x := rfl
      rw [hb]
      rcases hc with h | h <;> rw [h]
      · exact hy.2
      · exact ih.2

end Helpers

section Claims

variable {α : Type} [LinearOrderedField α]

/-- C1. Chain-state invariant: started from `x = 0.5` with `w = 0.4`, for every stream of
draws in `[0,1]` the chain value satisfies `0 ≤ x ≤ 1` after any number `k` of passes
through the loop body (so before and after every iteration), and in the state in which
the loop of a run of any length `iterations` ends. -/
theorem chain_state_invariant (drand48 : Nat → α) (hr : UnitDraws drand48) :
    (∀ k : Nat, 0 ≤ (stateAfter 0.5 0.4 drand48 k).x ∧ (stateAfter 0.5 0.4 drand48 k).x ≤ 1) ∧
    (∀ iterations : Nat,
      0 ≤ (loop 0.4 drand48 iterations 1 (initial 0.5)).x ∧
        (loop 0.4 drand48 iterations 1 (initial 0.5)).x ≤ 1) := by
  have key : ∀ k : Nat, 0 ≤ (stateAfter (0.5 : α) 0.4 drand48 k).x ∧
      (stateAfter (0.5 : α) 0.4 drand48 k).x ≤ 1 :=
    stateAfter_x_mem_unit 0.5 0.4 drand48 (by norm_num) (by norm_num) hr
      (by norm_num) (by norm_num)
  refine ⟨key, fun iterations => ?_⟩
  rw [loop_eq_stateAfter]
  exact key iterations

theorem chain_state_invariant_witness :
    UnitDraws (fun _ : Nat => (1 / 4 : ℚ)) ∧
      (0 ≤ (stateAfter (0.5 : ℚ) 0.4 (fun _ => 1 / 4) 2).x ∧
        (stateAfter (0.5 : ℚ) 0.4 (fun _ => 1 / 4) 2).x ≤ 1) :=
  ⟨fun _ => by norm_num,
    (chain_state_invariant (fun _ : Nat => (1 / 4 : ℚ)) (fun _ => by norm_num)).1 2⟩

/-- C2. Proposal postcondition: for every width `0 < w ≤ 2`, every `x` in `[0,1]` and
every `delta` with `|delta| ≤ w/2`, the proposal computed from `y = x + delta` by the two
reflection checks lies in `[0,1]`; in particular for `w = 0.4`. -/
theorem proposal_postcondition (w x delta : α) (hw0 : 0 < w) (hw : w ≤ 2)
    (hx0 : 0 ≤ x) (hx1 : x ≤ 1) (hd : |delta| ≤ w / 2) :
    0 ≤ propose x delta ∧ propose x delta ≤ 1 :=
  propose_mem_unit w x delta hw hx0 hx1 hd

theorem proposal_postcondition_witness :
    ((0 : ℚ) < 0.4 ∧ (0.4 : ℚ) ≤ 2 ∧ (0 : ℚ) ≤ 0.9 ∧ (0.9 : ℚ) ≤ 1 ∧
      |(0.2 : ℚ)| ≤ 0.4 / 2) ∧
      (0 ≤ propose (0.9 : ℚ) 0.2 ∧ propose (0.9 : ℚ) 0.2 ≤ 1) :=
  ⟨by norm_num [abs_of_nonneg],
    proposal_postcondition (0.4 : ℚ) 0.9 0.2 (by norm_num) (by norm_num) (by norm_num)
      (by norm_num) (by norm_num [abs_of_nonneg])⟩

/-- C4. Accept/reject rule: for a state `x` in `(0,1]`, a proposal `y` in `[0,1]` and
`u` in `[0,1]` the next value of the random stream, `u ≤ min(1, y/x)` says the same as
`mr ≥ 1 or u ≤ mr` with `mr = y/x`; when it holds lines 78-83 set `x := y` and add exactly
one to `nacpt`, and when it fails they leave `x` and `nacpt` as they were. -/
theorem accept_reject_rule (drand48 : Nat → α) (x y : α) (nacpt : Int) (drawn : Nat)
    (hx0 : 0 < x) (hx1 : x ≤ 1) (hy0 : 0 ≤ y) (hy1 : y ≤ 1)
    (hu0 : 0 ≤ drand48 drawn) (hu1 : drand48 drawn ≤ 1) :
    (drand48 drawn ≤ min 1 (y / x) ↔ (y / x ≥ 1 ∨ drand48 drawn ≤ y / x)) ∧
    (drand48 drawn ≤ min 1 (y / x) →
      (acceptReject drand48 x y nacpt drawn).x = y ∧
        (acceptReject drand48 x y nacpt drawn).nacpt = nacpt + 1) ∧
    (¬ drand48 drawn ≤ min 1 (y / x) →
      (acceptReject drand48 x y nacpt drawn).x = x ∧
        (acceptReject drand48 x y nacpt drawn).nacpt = nacpt) := by
  have hiff : drand48 drawn ≤ min 1 (y / x) ↔ (y / x ≥ 1 ∨ drand48 drawn ≤ y / x) := by
    rw [le_min_iff]
    constructor
    · intro h
      exact Or.inr h.2
    · rintro (h | h)
      · exact ⟨hu1, le_trans hu1 h⟩
      · exact ⟨hu1, h⟩
  refine ⟨hiff, ?_, ?_⟩
  · intro h
    rw [acceptReject_of_ne_zero drand48 x y nacpt drawn (ne_of_gt hx0)]
    rcases hiff.mp h with h1 | h2
    · rw [if_pos h1]
      exact ⟨rfl, rfl⟩
    · by_cases h1 : y / x ≥ 1
      · rw [if_pos h1]
        exact ⟨rfl, rfl⟩
      · rw [if_neg h1, if_pos h2]
        exact ⟨rfl, rfl⟩
  · intro h
    rw [acceptReject_of_ne_zero drand48 x y nacpt drawn (ne_of_gt hx0)]
    have h1 : ¬ (y / x ≥ 1) := fun c => h (hiff.mpr (Or.inl c))
    have h2 : ¬ (drand48 drawn ≤ y / x) := fun c => h (hiff.mpr (Or.inr c))
    rw [if_neg h1, if_neg h2]
    exact ⟨rfl, rfl⟩

theorem accept_reject_rule_witness :
    ((0 : ℚ) < 0.5 ∧ (0.5 : ℚ) ≤ 1 ∧ (0 : ℚ) ≤ 0.25 ∧ (0.25 : ℚ) ≤ 1 ∧
      (0 : ℚ) ≤ (fun _ : Nat => (0.75 : ℚ)) 7 ∧ (fun _ : Nat => (0.75 : ℚ)) 7 ≤ 1) ∧
      (acceptReject (fun _ : Nat => (0.75 : ℚ)) 0.5 0.25 3 7).x = 0.5 ∧
      (acceptReject (fun _ : Nat => (0.75 : ℚ)) 0.5 0.25 3 7).nacpt = 3 :=
  ⟨by norm_num,
    (accept_reject_rule (fun _ : Nat => (0.75 : ℚ)) 0.5 0.25 3 7 (by norm_num) (by norm_num)
      (by norm_num) (by norm_num) (by norm_num) (by norm_num)).2.2 (by norm_num)⟩

/-- C5. Acceptance monotonicity: for `x > 0` and a proposal with `mr = y/x ≥ 1` (which says
`y ≥ x`), lines 78-83 accept: `x` becomes `y`, `nacpt` grows by exactly one, no value is
taken from the random stream, and the outcome is the same for any two streams. -/
theorem acceptance_monotone (drand48 other : Nat → α) (x y : α) (nacpt : Int) (drawn : Nat)
    (hx : 0 < x) (hmr : y / x ≥ 1) :
    y ≥ x ∧
    acceptReject drand48 x y nacpt drawn = { x := y, nacpt := nacpt + 1, drawn := drawn } ∧
    acceptReject drand48 x y nacpt drawn = acceptReject other x y nacpt drawn := by
  have key : ∀ f : Nat → α,
      acceptReject f x y nacpt drawn = { x := y, nacpt := nacpt + 1, drawn := drawn } := by
    intro f
    rw [acceptReject_of_ne_zero f x y nacpt drawn (ne_of_gt hx), if_pos hmr]
  exact ⟨(one_le_div hx).mp hmr, key drand48, by rw [key drand48, key other]⟩

theorem acceptance_monotone_witness :
    ((0 : ℚ) < 0.25 ∧ (0.5 : ℚ) / 0.25 ≥ 1) ∧
      acceptReject (fun _ : Nat => (1 : ℚ)) 0.25 0.5 3 7 = { x := 0.5, nacpt := 3 + 1, drawn := 7 } :=
  ⟨by norm_num,
    (acceptance_monotone (fun _ : Nat => (1 : ℚ)) (fun _ : Nat => (0 : ℚ)) 0.25 0.5 3 7
      (by norm_num) (by norm_num)).2.1⟩

/-- C6, as stated, fails: draws in `[0,1]` can bring the chain to `0`.  From `0.5` the
draws `r = 0, u = 0` give `x = 0.3`, then `r = 7/32, u = 0` give `x = 0.1875`, and then
`r = 1/32, u = 0` propose `y = 0.1875 - 0.1875 = 0`, which is accepted because
`u ≤ mr = 0`.  The fourth iteration starts with `x = 0` and divides by it.  The three
accepted values are `0.3`, `0.1875`, `0` in binary64 as well. -/
theorem strict_positivity_counterexample :
    UnitDraws (fun n : Nat => if n = 2 then (7 / 32 : ℚ) else if n = 4 then 1 / 32 else 0) ∧
      (stateAfter (0.5 : ℚ) 0.4
        (fun n : Nat => if n = 2 then (7 / 32 : ℚ) else if n = 4 then 1 / 32 else 0) 3).x = 0 ∧
      ¬ (0 < (stateAfter (0.5 : ℚ) 0.4
        (fun n : Nat => if n = 2 then (7 / 32 : ℚ) else if n = 4 then 1 / 32 else 0) 3).x) := by
  have hx : (stateAfter (0.5 : ℚ) 0.4
      (fun n : Nat => if n = 2 then (7 / 32 : ℚ) else if n = 4 then 1 / 32 else 0) 3).x
      = 0 := by
    norm_num [stateAfter, body, acceptReject, propose, reflect, deltaOf, fdiv, initial,
      DivResult.geOne, DivResult.leFrom]
  refine ⟨?_, hx, ?_⟩
  · intro n
    show 0 ≤ (if n = 2 then (7 / 32 : ℚ) else if n = 4 then 1 / 32 else 0) ∧
      (if n = 2 then (7 / 32 : ℚ) else if n = 4 then 1 / 32 else 0) ≤ 1
    split_ifs <;> norm_num
  · rw [hx]
    exact lt_irrefl 0

/-- C6, amended.  Started from `x = 0.5` with `w = 0.4`, for every stream of draws in
`[0,1]` in which every acceptance draw `u` that is taken (the second value read by an
iteration that reads two) is greater than `0`, the chain value satisfies `0 < x ≤ 1` at
the start of every iteration, and the ratio of that iteration is the ordinary quotient
`y / x` of a division by a non-zero `x`. -/
theorem strict_positivity (drand48 : Nat → α) (hr : UnitDraws drand48)
    (hu : ∀ k : Nat,
      (stateAfter 0.5 0.4 drand48 (k + 1)).drawn = (stateAfter 0.5 0.4 drand48 k).drawn + 2 →
        0 < drand48 ((stateAfter 0.5 0.4 drand48 k).drawn + 1)) (k : Nat) :
    (0 < (stateAfter 0.5 0.4 drand48 k).x ∧ (stateAfter 0.5 0.4 drand48 k).x ≤ 1) ∧
    ∀ y : α, fdiv y (stateAfter 0.5 0.4 drand48 k).x =
      DivResult.fin (y / (stateAfter 0.5 0.4 drand48 k).x) := by
  have hunit := stateAfter_x_mem_unit (0.5 : α) 0.4 drand48 (by norm_num) (by norm_num) hr
    (by norm_num) (by norm_num)
  have hpos : ∀ n : Nat, 0 < (stateAfter (0.5 : α) 0.4 drand48 n).x := by
    intro n
    induction n with
    | zero =>
      show (0 : α) < 0.5
      norm_num
    | succ n ih =>
      have hy := propose_mem_unit (0.4 : α) (stateAfter (0.5 : α) 0.4 drand48 n).x
        (deltaOf 0.4 (drand48 (stateAfter (0.5 : α) 0.4 drand48 n).drawn)) (by norm_num)
        (hunit n).1 (hunit n).2
        (abs_deltaOf_le 0.4 _ (by norm_num) (hr _).1 (hr _).2)
      exact acceptReject_x_pos drand48 _ _ _ _ ih hy.1 (hu n)
  exact ⟨⟨hpos k, (hunit k).2⟩, fun y => fdiv_of_ne_zero y _ (ne_of_gt (hpos k))⟩

theorem strict_positivity_witness :
    (UnitDraws (fun _ : Nat => (1 / 4 : ℚ)) ∧
      (∀ k : Nat,
        (stateAfter 0.5 0.4 (fun _ : Nat => (1 / 4 : ℚ)) (k + 1)).drawn =
            (stateAfter 0.5 0.4 (fun _ : Nat => (1 / 4 : ℚ)) k).drawn + 2 →
          0 < (fun _ : Nat => (1 / 4 : ℚ))
            ((stateAfter 0.5 0.4 (fun _ : Nat => (1 / 4 : ℚ)) k).drawn + 1)) ∧
      (stateAfter 0.5 0.4 (fun _ : Nat => (1 / 4 : ℚ)) (0 + 1)).drawn =
        (stateAfter 0.5 0.4 (fun _ : Nat => (1 / 4 : ℚ)) 0).drawn + 2) ∧
      (0 < (stateAfter (0.5 : ℚ) 0.4 (fun _ : Nat => (1 / 4 : ℚ)) 2).x ∧
        (stateAfter (0.5 : ℚ) 0.4 (fun _ : Nat => (1 / 4 : ℚ)) 2).x ≤ 1) :=
  ⟨⟨fun _ => by norm_num, fun _ _ => by norm_num, by
      norm_num [stateAfter, body, acceptReject, propose, reflect, deltaOf, fdiv, initial,
        DivResult.geOne, DivResult.leFrom]⟩,
    (strict_positivity (fun _ : Nat => (1 / 4 : ℚ)) (fun _ => by norm_num)
      (fun _ _ => by norm_num) 2).1⟩

/-- C7, as stated, fails: the program has no error path and does not reject.  Started with
`x0 = 0` and the draw `r = 1`, the first iteration proposes `y = 0.2`, divides it by zero
(`mr` is `+inf`), accepts (`x = 0.2`, `nacpt = 1`), and the run ends with exit status `0`
having printed nothing but the header and the footer. -/
theorem degenerate_state_counterexample :
    propose (0 : ℚ) (deltaOf 0.4 1) = 0.2 ∧
      fdiv (0.2 : ℚ) 0 = DivResult.posInf ∧
      (stateAfter (0 : ℚ) 0.4 (fun _ : Nat => 1) 1).x = 0.2 ∧
      (stateAfter (0 : ℚ) 0.4 (fun _ : Nat => 1) 1).nacpt = 1 ∧
      ¬ ((stateAfter (0 : ℚ) 0.4 (fun _ : Nat => 1) 1).x = (initial (0 : ℚ)).x ∧
        (stateAfter (0 : ℚ) 0.4 (fun _ : Nat => 1) 1).nacpt = (initial (0 : ℚ)).nacpt) ∧
      (run (0 : ℚ) 0.4 1 (fun _ : Nat => 1)).2 = 0 ∧
      recordIts (run (0 : ℚ) 0.4 1 (fun _ : Nat => 1)).1.out = [] := by
  have hx : (stateAfter (0 : ℚ) 0.4 (fun _ : Nat => 1) 1).x = 0.2 := by
    norm_num [stateAfter, body, acceptReject, propose, reflect, deltaOf, fdiv, initial,
      DivResult.geOne, DivResult.leFrom]
  have hn : (stateAfter (0 : ℚ) 0.4 (fun _ : Nat => 1) 1).nacpt = 1 := by
    norm_num [stateAfter, body, acceptReject, propose, reflect, deltaOf, fdiv, initial,
      DivResult.geOne, DivResult.leFrom]
  refine ⟨?_, ?_, hx, hn, ?_, rfl, ?_⟩
  · norm_num [propose, reflect, deltaOf]
  · norm_num [fdiv]
  · rw [hx]
    rintro ⟨h, -⟩
    norm_num [initial] at h
  · show recordIts ((loop (0.4 : ℚ) (fun _ : Nat => 1) 1 1 (initial 0)).out ++ [Line.footer]) = []
    rw [loop_eq_stateAfter]
    simp [stateAfter, body, initial, recordIts]

/-- C7, amended.  An iteration entered with `x = 0` reports nothing and divides by zero.
For a proposal `y > 0` the ratio is `+inf` and the step is accepted without an acceptance
draw (`x := y`, `nacpt` plus one); otherwise (`y = 0`, the ratio is NaN) the acceptance
draw is taken and the step is rejected, `x` and `nacpt` staying as they were.  In no case
is the ratio a finite number. -/
theorem degenerate_state (drand48 : Nat → α) (y : α) (nacpt : Int) (drawn : Nat) :
    (∀ q : α, fdiv y 0 ≠ DivResult.fin q) ∧
    acceptReject drand48 0 y nacpt drawn =
      if y > 0 then { x := y, nacpt := nacpt + 1, drawn := drawn }
      else { x := 0, nacpt := nacpt, drawn := drawn + 1 } := by
  constructor
  · intro q
    unfold fdiv
    rw [if_pos rfl]
    split_ifs <;> simp
  · unfold acceptReject fdiv
    rw [if_pos rfl]
    by_cases h1 : y > 0
    · simp [h1, DivResult.geOne]
    · by_cases h2 : y < 0
      · simp [h1, h2, DivResult.geOne, DivResult.leFrom]
      · simp [h1, h2, DivResult.geOne, DivResult.leFrom]

/-- C8, as stated, fails for a large perturbation: from `x = 0` with `delta = 4` the value
`y = 4` is outside `[0,1]`, the first check gives `-2`, the second gives `2`, which is
outside `[0,1]` as well. -/
theorem reflection_range_counterexample :
    ((0 : ℚ) ≤ 0 ∧ (0 : ℚ) ≤ 1 ∧ ((0 : ℚ) + 4 < 0 ∨ (0 : ℚ) + 4 > 1)) ∧
      propose (0 : ℚ) 4 = 2 ∧ ¬ (0 ≤ propose (0 : ℚ) 4 ∧ propose (0 : ℚ) 4 ≤ 1) := by
  have h : propose (0 : ℚ) 4 = 2 := by
    norm_num [propose, reflect]
  refine ⟨by norm_num, h, ?_⟩
  rw [h]
  norm_num

/-- C8, amended.  For `x` in `[0,1]` and any `delta` such that `y = x + delta` falls
outside `[0,1]`, the value produced by the two reflection checks lies in `[0,1]` exactly
when `-1 ≤ x + delta ≤ 3`. -/
theorem reflection_range (x delta : α) (hx0 : 0 ≤ x) (hx1 : x ≤ 1)
    (hout : x + delta < 0 ∨ x + delta > 1) :
    (0 ≤ propose x delta ∧ propose x delta ≤ 1) ↔ (-1 ≤ x + delta ∧ x + delta ≤ 3) :=
  reflect_mem_unit_iff (x + delta)

theorem reflection_range_witness :
    ((0 : ℚ) ≤ 0.5 ∧ (0.5 : ℚ) ≤ 1 ∧ ((0.5 : ℚ) + 2.25 < 0 ∨ (0.5 : ℚ) + 2.25 > 1)) ∧
      (0 ≤ propose (0.5 : ℚ) 2.25 ∧ propose (0.5 : ℚ) 2.25 ≤ 1) :=
  ⟨by norm_num,
    (reflection_range (0.5 : ℚ) 2.25 (by norm_num) (by norm_num) (by norm_num)).mpr
      (by norm_num)⟩

/-- C9. Reflection is distance-preserving: for `x` in `[0,1]` and `|delta| ≤ w/2` with
`w = 0.4`, when `y = x + delta > 1` the proposal is `z = 2 - y` and `|z - 1| = |y - 1|`,
and when `y < 0` the proposal is `z = -y` and `|z - 0| = |y - 0|`. -/
theorem reflection_distance (x delta : α) (hx0 : 0 ≤ x) (hx1 : x ≤ 1)
    (hd : |delta| ≤ 0.4 / 2) :
    (x + delta > 1 →
      propose x delta = 2 - (x + delta) ∧ |propose x delta - 1| = |(x + delta) - 1|) ∧
    (x + delta < 0 →
      propose x delta = -(x + delta) ∧ |propose x delta - 0| = |(x + delta) - 0|) := by
  have hd2 := abs_le.mp hd
  have hw : (0.4 : α) / 2 = 1 / 5 := by norm_num
  rw [hw] at hd2
  constructor
  · intro h
    have e : propose x delta = 2 - (x + delta) :=
      reflect_of_gt_one (x + delta) h (by linarith [hd2.2])
    refine ⟨e, ?_⟩
    rw [e]
    have : 2 - (x + delta) - 1 = -((x + delta) - 1) := by ring
    rw [this, abs_neg]
  · intro h
    have e : propose x delta = -(x + delta) := reflect_of_neg (x + delta) h
    refine ⟨e, ?_⟩
    rw [e, sub_zero, sub_zero, abs_neg]

theorem reflection_distance_witness :
    ((0 : ℚ) ≤ 0.9 ∧ (0.9 : ℚ) ≤ 1 ∧ |(0.2 : ℚ)| ≤ 0.4 / 2 ∧ (0.9 : ℚ) + 0.2 > 1) ∧
      (propose (0.9 : ℚ) 0.2 = 2 - (0.9 + 0.2) ∧
        |propose (0.9 : ℚ) 0.2 - 1| = |((0.9 : ℚ) + 0.2) - 1|) :=
  ⟨by norm_num [abs_of_nonneg],
    (reflection_distance (0.9 : ℚ) 0.2 (by norm_num) (by norm_num)
      (by norm_num [abs_of_nonneg])).1 (by norm_num)⟩

/-- C10. Reporting cadence: for every iteration count, initial value, width and stream
of draws, the diagnostic records of a run are, in the order printed, those of the
iterations `i` in `1..iterations` with `i mod 100 = 0`, one each, so there are
`iterations / 100` of them; a run of `100 * m` iterations prints `m` records, at
`100, 200, ..., 100 * m`; and `main` (`iterations = 100000`) prints `1000` records. -/
theorem reporting_cadence (x0 w : α) (iterations m : Nat) (drand48 : Nat → α) :
    recordIts (run x0 w iterations drand48).1.out =
        (List.range' 1 iterations).filter (fun i => i % 100 = 0) ∧
    (recordIts (run x0 w iterations drand48).1.out).length = iterations / 100 ∧
    recordIts (run x0 w (100 * m) drand48).1.out =
        (List.range m).map (fun j => 100 * (j + 1)) ∧
    (recordIts (run x0 w (100 * m) drand48).1.out).length = m ∧
    (recordIts (main drand48).1.out).length = 1000 := by
  have key : ∀ n : Nat, recordIts (run x0 w n drand48).1.out =
      (List.range' 1 n).filter (fun i => i % 100 = 0) := by
    intro n
    show recordIts ((loop w drand48 n 1 (initial x0)).out ++ [Line.footer]) = _
    rw [loop_eq_stateAfter, recordIts_append, recordIts_stateAfter]
    simp [recordIts]
  have hmain : recordIts (main drand48).1.out =
      (List.range' 1 100000).filter (fun i => i % 100 = 0) := by
    show recordIts ((loop (0.4 : α) drand48 100000 1 (initial 0.5)).out ++ [Line.footer]) = _
    rw [loop_eq_stateAfter, recordIts_append, recordIts_stateAfter]
    simp [recordIts]
  refine ⟨key iterations, ?_, ?_, ?_, ?_⟩
  · rw [key, hundreds_length]
  · rw [key, hundreds_of_multiple]
  · rw [key, hundreds_of_multiple]
    simp
  · rw [hmain, hundreds_length]

/-- C11. Accumulators are monotone: started from `x = 0.5`, `xsum = 0`, `nacpt = 0` with
`w = 0.4`, for every stream of draws in `[0,1]` and every pass of the loop, `nacpt` goes
up by `0` or `1`, `xsum` goes up by the chain value `x` left by that pass, which is not
negative, and so neither accumulator decreases. -/
theorem accumulators_monotone (drand48 : Nat → α) (hr : UnitDraws drand48) (k : Nat) :
    ((stateAfter 0.5 0.4 drand48 0).xsum = 0 ∧ (stateAfter 0.5 0.4 drand48 0).nacpt = 0) ∧
    (((stateAfter 0.5 0.4 drand48 (k + 1)).nacpt = (stateAfter 0.5 0.4 drand48 k).nacpt ∨
        (stateAfter 0.5 0.4 drand48 (k + 1)).nacpt = (stateAfter 0.5 0.4 drand48 k).nacpt + 1) ∧
      (stateAfter 0.5 0.4 drand48 k).nacpt ≤ (stateAfter 0.5 0.4 drand48 (k + 1)).nacpt) ∧
    ((stateAfter 0.5 0.4 drand48 (k + 1)).xsum =
        (stateAfter 0.5 0.4 drand48 k).xsum + (stateAfter 0.5 0.4 drand48 (k + 1)).x ∧
      0 ≤ (stateAfter 0.5 0.4 drand48 (k + 1)).x ∧
      (stateAfter 0.5 0.4 drand48 k).xsum ≤ (stateAfter 0.5 0.4 drand48 (k + 1)).xsum) := by
  have hx := (stateAfter_x_mem_unit (0.5 : α) 0.4 drand48 (by norm_num) (by norm_num) hr
    (by norm_num) (by norm_num) (k + 1)).1
  refine ⟨⟨rfl, rfl⟩, ?_, stateAfter_succ_xsum _ _ _ _, hx, ?_⟩
  · rw [stateAfter_succ_nacpt]
    by_cases h : acceptedIn (0.5 : α) 0.4 drand48 k = true
    · rw [if_pos h]
      exact ⟨Or.inr rfl, by omega⟩
    · rw [if_neg h]
      exact ⟨Or.inl rfl, le_refl _⟩
  · rw [stateAfter_succ_xsum]
    linarith

theorem accumulators_monotone_witness :
    UnitDraws (fun _ : Nat => (1 / 4 : ℚ)) ∧
      (stateAfter (0.5 : ℚ) 0.4 (fun _ => 1 / 4) 2).xsum ≤
        (stateAfter (0.5 : ℚ) 0.4 (fun _ => 1 / 4) (2 + 1)).xsum :=
  ⟨fun _ => by norm_num,
    (accumulators_monotone (fun _ : Nat => (1 / 4 : ℚ)) (fun _ => by norm_num) 2).2.2.2.2⟩

/-- C13. At most one reflection per step: with `w = 0.4`, so `|delta| ≤ 0.2`, and `x` in
`[0,1]`, the two checks of lines 73-76 do not both fire on `y = x + delta` (when `y > 1`
the reflected `2 - y` is not negative), and the `if` / `if` sequence gives the same
proposal as an `if` / `else if` chain. -/
theorem one_reflection (x delta : α) (hx0 : 0 ≤ x) (hx1 : x ≤ 1) (hd : |delta| ≤ 0.4 / 2) :
    ¬ (x + delta > 1 ∧ 2 - (x + delta) < 0) ∧
    (x + delta > 1 → ¬ (2 - (x + delta) < 0)) ∧
    propose x delta = reflectElseIf (x + delta) := by
  have hd2 := abs_le.mp hd
  have hw : (0.4 : α) / 2 = 1 / 5 := by norm_num
  rw [hw] at hd2
  have hno : ¬ (2 - (x + delta) < 0) := by
    intro h
    linarith [hd2.2]
  refine ⟨fun h => hno h.2, fun _ => hno, ?_⟩
  unfold propose reflectElseIf
  by_cases h1 : x + delta > 1
  · rw [reflect_of_gt_one _ h1 (by linarith [hd2.2]), if_pos h1]
  · rw [if_neg h1]
    by_cases h2 : x + delta < 0
    · rw [reflect_of_neg _ h2, if_pos h2]
    · rw [reflect_of_mem_unit _ (not_lt.mp h2) (not_lt.mp h1), if_neg h2]

theorem one_reflection_witness :
    ((0 : ℚ) ≤ 0.9 ∧ (0.9 : ℚ) ≤ 1 ∧ |(0.2 : ℚ)| ≤ 0.4 / 2) ∧
      propose (0.9 : ℚ) 0.2 = reflectElseIf ((0.9 : ℚ) + 0.2) :=
  ⟨by norm_num [abs_of_nonneg],
    (one_reflection (0.9 : ℚ) 0.2 (by norm_num) (by norm_num)
      (by norm_num [abs_of_nonneg])).2.2⟩

/-- C14. Running mean of the post-update states: for every number `k` of passes, initial
value and stream of draws, `xsum` is the sum of the chain values `x_1, ..., x_k` left by
the passes (the initial value is not in it, and a pass that rejects leaves, and adds, the
value it found); `nacpt` is the number of passes among `1..k` that accepted; and the lines
printed are the header followed, for each multiple `i` of `100` up to `k` in order, by the
record of `i`, `x_i`, `xsum_i / i` and `nacpt_i`. -/
theorem running_mean (x0 w : α) (drand48 : Nat → α) (k : Nat) :
    (stateAfter x0 w drand48 k).xsum =
        Finset.sum (Finset.range k) (fun j => (stateAfter x0 w drand48 (j + 1)).x) ∧
    (acceptedIn x0 w drand48 k = false →
        (stateAfter x0 w drand48 (k + 1)).x = (stateAfter x0 w drand48 k).x) ∧
    (stateAfter x0 w drand48 k).nacpt =
        ((List.range k).countP (acceptedIn x0 w drand48) : Nat) ∧
    (stateAfter x0 w drand48 k).out =
        Line.header :: ((List.range' 1 k).filter (fun i => i % 100 = 0)).map
          (fun i => Line.record i (stateAfter x0 w drand48 i).x
            ((stateAfter x0 w drand48 i).xsum / (i : α)) (stateAfter x0 w drand48 i).nacpt) ∧
    (run x0 w k drand48).1.xsum = (stateAfter x0 w drand48 k).xsum := by
  refine ⟨stateAfter_xsum x0 w drand48 k, ?_, stateAfter_nacpt x0 w drand48 k,
    stateAfter_out x0 w drand48 k, ?_⟩
  · intro h
    rw [stateAfter_succ_x, h]
    rfl
  · show (loop w drand48 k 1 (initial x0)).xsum = _
    rw [loop_eq_stateAfter]

/-- C15, as stated, fails: the `||` of line 80 does not call `drand48()` when
`mr >= 1.0`.  From `x = 0.5` the draw `r = 1` proposes `y = 0.7`, `mr = 1.4`, and the first
pass has taken one value from the stream, not two; a run of one iteration takes one. -/
theorem random_stream_use_counterexample :
    (stateAfter (0.5 : ℚ) 0.4 (fun _ : Nat => 1) 1).drawn = 1 ∧
      (stateAfter (0.5 : ℚ) 0.4 (fun _ : Nat => 1) 1).drawn ≠ 2 * 1 ∧
      (run (0.5 : ℚ) 0.4 1 (fun _ : Nat => 1)).1.drawn = 1 := by
  have h : (stateAfter (0.5 : ℚ) 0.4 (fun _ : Nat => 1) 1).drawn = 1 := by
    norm_num [stateAfter, body, acceptReject, propose, reflect, deltaOf, fdiv, initial,
      DivResult.geOne, DivResult.leFrom]
  refine ⟨h, ?_, ?_⟩
  · rw [h]
    decide
  · show (loop (0.4 : ℚ) (fun _ : Nat => 1) 1 1 (initial 0.5)).drawn = 1
    rw [loop_eq_stateAfter]
    exact h

/-- C15, amended.  Every pass takes the value for `delta` from the stream first, and the
acceptance variate `u` next only when `mr >= 1.0` is false: a pass takes one value when
`mr >= 1.0` and two otherwise, so a run of `N` iterations takes at least `N` and at most
`2 N` values. -/
theorem random_stream_use (x0 w : α) (drand48 : Nat → α) (k : Nat) :
    (stateAfter x0 w drand48 (k + 1)).drawn =
        (stateAfter x0 w drand48 k).drawn +
          (if (fdiv (propose (stateAfter x0 w drand48 k).x
                (deltaOf w (drand48 (stateAfter x0 w drand48 k).drawn)))
              (stateAfter x0 w drand48 k).x).geOne then 1 else 2) ∧
    (k ≤ (run x0 w k drand48).1.drawn ∧ (run x0 w k drand48).1.drawn ≤ 2 * k) := by
  refine ⟨stateAfter_succ_drawn x0 w drand48 k, ?_⟩
  show k ≤ (loop w drand48 k 1 (initial x0)).drawn ∧
    (loop w drand48 k 1 (initial x0)).drawn ≤ 2 * k
  rw [loop_eq_stateAfter]
  exact stateAfter_drawn_bounds x0 w drand48 k

/-- C17. Positive acceptance draws keep the state positive: started from any `x0` in
`(0,1]` with `w = 0.4`, if every perturbation has `|delta| ≤ 0.2` and every acceptance
draw `u` that is taken is greater than `0`, then `x > 0` after every pass; and a proposal
`y = 0` made from a state `x > 0` is accepted exactly when `u ≤ 0`. -/
theorem positive_draws_keep_positive (x0 : α) (drand48 : Nat → α) (hx0 : 0 < x0)
    (hx1 : x0 ≤ 1)
    (hd : ∀ k : Nat,
      |deltaOf 0.4 (drand48 (stateAfter x0 0.4 drand48 k).drawn)| ≤ 0.2)
    (hu : ∀ k : Nat,
      (stateAfter x0 0.4 drand48 (k + 1)).drawn = (stateAfter x0 0.4 drand48 k).drawn + 2 →
        0 < drand48 ((stateAfter x0 0.4 drand48 k).drawn + 1)) :
    (∀ k : Nat, 0 < (stateAfter x0 0.4 drand48 k).x) ∧
    (∀ (x : α) (other : Nat → α) (drawn : Nat), 0 < x →
      (accepts other x 0 drawn = true ↔ other drawn ≤ 0)) := by
  refine ⟨fun k => (stateAfter_x_pos x0 drand48 hx0 hx1 hd hu k).1, ?_⟩
  intro x other drawn hx
  rw [accepts_iff_of_pos other x 0 drawn hx, zero_div]
  constructor
  · rintro (h | h)
    · exact absurd h (not_le.mpr zero_lt_one)
    · exact h
  · intro h
    exact Or.inr h

theorem positive_draws_keep_positive_witness :
    ((0 : ℚ) < 0.25 ∧ (0.25 : ℚ) ≤ 1 ∧
      (∀ k : Nat, |deltaOf 0.4 ((fun _ : Nat => (1 : ℚ))
          (stateAfter (0.25 : ℚ) 0.4 (fun _ : Nat => (1 : ℚ)) k).drawn)| ≤ 0.2) ∧
      (∀ k : Nat,
        (stateAfter (0.25 : ℚ) 0.4 (fun _ : Nat => (1 : ℚ)) (k + 1)).drawn =
            (stateAfter (0.25 : ℚ) 0.4 (fun _ : Nat => (1 : ℚ)) k).drawn + 2 →
          0 < (fun _ : Nat => (1 : ℚ))
            ((stateAfter (0.25 : ℚ) 0.4 (fun _ : Nat => (1 : ℚ)) k).drawn + 1))) ∧
      0 < (stateAfter (0.25 : ℚ) 0.4 (fun _ : Nat => (1 : ℚ)) 2).x :=
  ⟨⟨by norm_num, by norm_num, fun _ => by norm_num [deltaOf, abs_of_nonneg],
      fun _ _ => by norm_num⟩,
    (positive_draws_keep_positive (0.25 : ℚ) (fun _ : Nat => (1 : ℚ)) (by norm_num)
      (by norm_num) (fun _ => by norm_num [deltaOf, abs_of_nonneg])
      (fun _ _ => by norm_num)).1 2⟩

end Claims

/-!
The proposal kernel in exact arithmetic.

The facts of this section concern lines 69-76 computed without rounding.  They rest on
the cancellation `(x + d) - d = x`.  The source adds in binary64, where the sum `x + d` is
rounded and that cancellation fails, so these are facts of the idealised kernel and not
of the compiled program.
-/

section ExactKernel

variable {α : Type} [LinearOrderedField α]

/-- A move of width `0.4` can be taken back: when `d` in `[-0.2, 0.2]` leads from `a` in
`[0,1]` to `b`, some perturbation of `[-0.2, 0.2]` leads from `b` to `a`. -/
theorem propose_back (a b d : α) (ha0 : 0 ≤ a) (ha1 : a ≤ 1)
    (h1 : -0.2 ≤ d) (h2 : d ≤ 0.2) (h3 : propose a d = b) :
    ∃ e : α, -0.2 ≤ e ∧ e ≤ 0.2 ∧ propose b e = a := by
  have hc : (0.2 : α) = 1 / 5 := by norm_num
  rw [hc] at h1 h2 ⊢
  unfold propose at h3
  rcases lt_or_le (a + d) 0 with hn | hn
  · rw [reflect_of_neg _ hn] at h3
    refine ⟨d, h1, h2, ?_⟩
    unfold propose
    have e2 : b + d = -a := by rw [← h3]; ring
    rw [e2]
    rcases eq_or_lt_of_le ha0 with h | h
    · rw [← h, neg_zero]
      exact reflect_of_mem_unit 0 le_rfl zero_le_one
    · rw [reflect_of_neg _ (by linarith)]
      ring
  · rcases lt_or_le 1 (a + d) with hg | hg
    · rw [reflect_of_gt_one _ hg (by linarith)] at h3
      refine ⟨d, h1, h2, ?_⟩
      unfold propose
      have e2 : b + d = 2 - a := by rw [← h3]; ring
      rw [e2]
      rcases eq_or_lt_of_le ha1 with h | h
      · rw [h]
        have : (2 : α) - 1 = 1 := by norm_num
        rw [this]
        exact reflect_of_mem_unit 1 zero_le_one le_rfl
      · rw [reflect_of_gt_one _ (by linarith) (by linarith)]
        ring
    · rw [reflect_of_mem_unit _ hn hg] at h3
      refine ⟨-d, by linarith, by linarith, ?_⟩
      unfold propose
      have e2 : b + -d = a := by rw [← h3]; ring
      rw [e2]
      exact reflect_of_mem_unit a ha0 ha1

/-- On a wall the number of perturbations is not symmetric.  With `w = 0.4`, two
perturbations lead from `x = 0` to `y = 0.1` (`0.1` itself and `-0.1`, which is
reflected), but only one leads from `0.1` back to `0`. -/
theorem exact_wall_count :
    ((0 : ℚ) ≤ 0 ∧ (0 : ℚ) ≤ 1 ∧ (0 : ℚ) ≤ 0.1 ∧ (0.1 : ℚ) ≤ 1) ∧
      Set.ncard {delta : ℚ | LeadsTo 0.4 0 0.1 delta} = 2 ∧
      Set.ncard {delta : ℚ | LeadsTo 0.4 0.1 0 delta} = 1 := by
  refine ⟨by norm_num, ?_, ?_⟩
  · have hset : {delta : ℚ | LeadsTo 0.4 0 0.1 delta} = {0.1, -0.1} := by
      ext d
      simp only [Set.mem_setOf_eq, Set.mem_insert_iff, Set.mem_singleton_iff, LeadsTo, propose,
        reflect]
      constructor
      · rintro ⟨h1, h2, h3⟩
        split_ifs at h3 with a b c
        · left; linarith
        · norm_num at a; linarith
        · right; linarith
        · left; linarith
      · rintro (h | h) <;> subst h <;> norm_num
    rw [hset]
    exact Set.ncard_pair (by norm_num)
  · have hset : {delta : ℚ | LeadsTo 0.4 0.1 0 delta} = {-0.1} := by
      ext d
      simp only [Set.mem_setOf_eq, Set.mem_singleton_iff, LeadsTo, propose, reflect]
      constructor
      · rintro ⟨h1, h2, h3⟩
        split_ifs at h3 with a b c
        · norm_num at a h2; linarith
        · norm_num at a h2; linarith
        · linarith
        · linarith
      · rintro h
        subst h
        norm_num
    rw [hset]
    exact Set.ncard_singleton _

/-- In exact arithmetic, with `w = 0.4`: for `x` and `y` in `[0,1]` of which none or both
lie on the wall `0` and none or both lie on the wall `1`, as many perturbations of
`[-w/2, w/2]` lead from `x` to `y` as lead from `y` to `x`.  The map between the two sets
sends `d` to `-d` or to `d`, and needs `(x + d) - d = x`. -/
theorem exact_count_symmetry (x y : α) (hx0 : 0 ≤ x) (hx1 : x ≤ 1) (hy0 : 0 ≤ y) (hy1 : y ≤ 1)
    (hwall0 : x = 0 ↔ y = 0) (hwall1 : x = 1 ↔ y = 1) :
    Set.ncard {delta : α | LeadsTo 0.4 x y delta} =
      Set.ncard {delta : α | LeadsTo 0.4 y x delta} := by
  have hw : (0.4 : α) / 2 = 1 / 5 := by norm_num
  -- the shape of a move from `a` to `b`
  have shape : ∀ a b d : α, 0 ≤ a → a ≤ 1 → LeadsTo 0.4 a b d →
      (0 ≤ a + d ∧ a + d ≤ 1 ∧ b = a + d) ∨ (1 < a + d ∧ b = 2 - (a + d)) ∨
        (a + d < 0 ∧ b = -(a + d)) := by
    intro a b d ha0 ha1 h
    obtain ⟨h1, h2, h3⟩ := h
    rw [hw] at h1 h2
    unfold propose at h3
    rcases lt_or_le (a + d) 0 with hn | hn
    · rw [reflect_of_neg _ hn] at h3
      exact Or.inr (Or.inr ⟨hn, h3.symm⟩)
    · rcases lt_or_le 1 (a + d) with hg | hg
      · rw [reflect_of_gt_one _ hg (by linarith)] at h3
        exact Or.inr (Or.inl ⟨hg, h3.symm⟩)
      · rw [reflect_of_mem_unit _ hn hg] at h3
        exact Or.inl ⟨hn, hg, h3.symm⟩
  -- moving back: the same perturbation after a reflection, the opposite one otherwise
  have back : ∀ a b d : α, 0 ≤ a → a ≤ 1 → LeadsTo 0.4 a b d →
      LeadsTo 0.4 b a (if 0 ≤ a + d ∧ a + d ≤ 1 then -d else d) := by
    intro a b d ha0 ha1 h
    have hs := shape a b d ha0 ha1 h
    obtain ⟨h1, h2, -⟩ := h
    rw [hw] at h1 h2
    rcases hs with ⟨p, q, e⟩ | ⟨p, e⟩ | ⟨p, e⟩
    · rw [if_pos ⟨p, q⟩]
      refine ⟨by rw [hw]; linarith, by rw [hw]; linarith, ?_⟩
      unfold propose
      have : b + -d = a := by rw [e]; ring
      rw [this]
      exact reflect_of_mem_unit a ha0 ha1
    · rw [if_neg (fun c => absurd c.2 (not_le.mpr p))]
      refine ⟨by rw [hw]; linarith, by rw [hw]; linarith, ?_⟩
      unfold propose
      have e2 : b + d = 2 - a := by rw [e]; ring
      rw [e2]
      rcases eq_or_lt_of_le ha1 with h | h
      · rw [h]
        norm_num
        exact reflect_of_mem_unit 1 zero_le_one le_rfl
      · rw [reflect_of_gt_one _ (by linarith) (by linarith)]
        ring
    · rw [if_neg (fun c => absurd c.1 (not_le.mpr p))]
      refine ⟨by rw [hw]; linarith, by rw [hw]; linarith, ?_⟩
      unfold propose
      have e2 : b + d = -a := by rw [e]; ring
      rw [e2]
      rcases eq_or_lt_of_le ha0 with h | h
      · rw [← h]
        norm_num
        exact reflect_of_mem_unit 0 le_rfl zero_le_one
      · rw [reflect_of_neg _ (by linarith)]
        ring
  refine Set.ncard_congr (fun d _ => if 0 ≤ x + d ∧ x + d ≤ 1 then -d else d) ?_ ?_ ?_
  · intro d hd
    exact back x y d hx0 hx1 hd
  · intro d1 d2 h1 h2 he
    have s1 := shape x y d1 hx0 hx1 h1
    have s2 := shape x y d2 hx0 hx1 h2
    simp only at he
    by_cases c1 : 0 ≤ x + d1 ∧ x + d1 ≤ 1
    · by_cases c2 : 0 ≤ x + d2 ∧ x + d2 ≤ 1
      · rw [if_pos c1, if_pos c2] at he
        exact neg_injective he
      · rw [if_pos c1, if_neg c2] at he
        exfalso
        rcases s1 with ⟨-, -, e1⟩ | ⟨p, -⟩ | ⟨p, -⟩
        · rcases s2 with ⟨p2, q2, -⟩ | ⟨p2, e2⟩ | ⟨p2, e2⟩
          · exact c2 ⟨p2, q2⟩
          · have hx : x = 1 := by linarith
            have hy : y = 1 := hwall1.mp hx
            linarith
          · have hx : x = 0 := by linarith
            have hy : y = 0 := hwall0.mp hx
            linarith
        · linarith [c1.2]
        · linarith [c1.1]
    · by_cases c2 : 0 ≤ x + d2 ∧ x + d2 ≤ 1
      · rw [if_neg c1, if_pos c2] at he
        exfalso
        rcases s2 with ⟨-, -, e2⟩ | ⟨p, -⟩ | ⟨p, -⟩
        · rcases s1 with ⟨p1, q1, -⟩ | ⟨p1, e1⟩ | ⟨p1, e1⟩
          · exact c1 ⟨p1, q1⟩
          · have hx : x = 1 := by linarith
            have hy : y = 1 := hwall1.mp hx
            linarith
          · have hx : x = 0 := by linarith
            have hy : y = 0 := hwall0.mp hx
            linarith
        · linarith [c2.2]
        · linarith [c2.1]
      · rw [if_neg c1, if_neg c2] at he
        exact he
  · intro d hd
    have sd := shape y x d hy0 hy1 hd
    have hb := back y x d hy0 hy1 hd
    rcases sd with ⟨p, q, e⟩ | ⟨p, e⟩ | ⟨p, e⟩
    · rw [if_pos ⟨p, q⟩] at hb
      refine ⟨-d, hb, ?_⟩
      have : x + -d = y := by rw [e]; ring
      simp only [this]
      rw [if_pos ⟨hy0, hy1⟩]
      ring
    · rw [if_neg (fun c => absurd c.2 (not_le.mpr p))] at hb
      refine ⟨d, hb, ?_⟩
      have hy : y ≠ 1 := by
        intro h
        have hx : x = 1 := hwall1.mpr h
        linarith
      have hylt : y < 1 := lt_of_le_of_ne hy1 hy
      have : ¬ (0 ≤ x + d ∧ x + d ≤ 1) := by
        intro c
        linarith [c.2]
      simp only
      rw [if_neg this]
    · rw [if_neg (fun c => absurd c.1 (not_le.mpr p))] at hb
      refine ⟨d, hb, ?_⟩
      have hy : y ≠ 0 := by
        intro h
        have hx : x = 0 := hwall0.mpr h
        linarith
      have hylt : 0 < y := lt_of_le_of_ne hy0 (Ne.symm hy)
      have : ¬ (0 ≤ x + d ∧ x + d ≤ 1) := by
        intro c
        linarith [c.1]
      simp only
      rw [if_neg this]

/-- In exact arithmetic, with `w = 0.4`: for `x` and `y` in `[0,1]`, some `delta` in
`[-0.2, 0.2]` has its reflected proposal from `x` equal to `y` if and only if some
`delta'` in `[-0.2, 0.2]` has its reflected proposal from `y` equal to `x`. -/
theorem exact_reachability_symmetric (x y : α) (hx0 : 0 ≤ x) (hx1 : x ≤ 1) (hy0 : 0 ≤ y)
    (hy1 : y ≤ 1) :
    (∃ delta : α, -0.2 ≤ delta ∧ delta ≤ 0.2 ∧ propose x delta = y) ↔
      (∃ delta : α, -0.2 ≤ delta ∧ delta ≤ 0.2 ∧ propose y delta = x) := by
  constructor
  · rintro ⟨d, h1, h2, h3⟩
    exact propose_back x y d hx0 hx1 h1 h2 h3
  · rintro ⟨d, h1, h2, h3⟩
    exact propose_back y x d hy0 hy1 h1 h2 h3

end ExactKernel

end Toymetro
